import Mathlib

/-!
Shallow embedding of the DeepChess preprocessing script
(`Preprocessing Script/PGNData.py`).

The script has two parts:

* `PGNData._bitboard`: turns a `chess.Board` into a 773-entry boolean
  vector (768 piece-placement bits, bit 768 side to move, bits 769-772
  castling rights).  We model the part of the board that the encoder
  reads (`Board` below) and the encoder itself (`bitboard`).

* `PGNData.preprocess`: streams games, includes each non-draw game with
  a coin flip, skips the first 5 plies, scans the remaining `PlyCount - 5`
  moves for non-captures, samples 10 of those indices without
  replacement via `np.random.choice`, replays the window collecting the
  encoded position after each sampled move, and appends the collected
  vectors to `win_data` for result "1-0" or `loss_data` for "0-1".
  Board replay (`push`, `is_capture`) is supplied by the external
  python-chess library, so the pipeline is embedded parametrically over
  those operations (`ChessOps`).  Python exceptions (`StopIteration`
  from an exhausted move iterator, `ValueError` from
  `np.random.choice`) are modelled with `Except String`; an uncaught
  exception aborts the whole run, which the `Except` monad mirrors.
  Randomness is modelled by explicit streams: a coin per game for the
  inclusion trial and, for sampling, an arbitrary permutation function
  standing for the shuffle performed by `np.random.choice`.
-/

namespace DeepChess

/-- Model of a chess piece as the encoder reads it: `color` mirrors
`piece.color` of python-chess (`true` = White), `pieceType` mirrors
`piece.piece_type` (1 = pawn, ..., 6 = king). -/
structure Piece where
  color : Bool
  pieceType : Nat
deriving DecidableEq, Repr

/-- Model of the part of `chess.Board` read by `PGNData._bitboard`:
the piece map (a dictionary keyed by square, hence distinct squares),
the side to move, and the four castling-rights flags in the order the
source queries them. -/
structure Board where
  pieceMap : List (Nat × Piece)
  turn : Bool
  whiteKingside : Bool
  whiteQueenside : Bool
  blackKingside : Bool
  blackQueenside : Bool
deriving DecidableEq, Repr

/-- Mirrors `int(piece.color)`: 1 for White (`true`), 0 for Black. -/
def colorInt (c : Bool) : Nat := if c then 1 else 0

/-- Mirrors `index = (1 - color) * 6 * 64 + (piece_type - 1) * 64 + square`
from `PGNData._bitboard`. -/
def pieceIndex (color : Bool) (pieceType square : Nat) : Nat :=
  (1 - colorInt color) * 6 * 64 + (pieceType - 1) * 64 + square

/-- Bit index of one entry of the piece map. -/
def entryIndex (e : Nat × Piece) : Nat :=
  pieceIndex e.2.color e.2.pieceType e.1

/-- Piece loop of `PGNData._bitboard`: start from
`np.zeros(773, dtype=bool)` and set the bit of every piece-map entry. -/
def pieceBits (b : Board) : List Bool :=
  b.pieceMap.foldl (fun acc e => acc.set (entryIndex e) true) (List.replicate 773 false)

/-- Shallow embedding of `PGNData._bitboard`: the piece bits, then
bit 768 (side to move) and bits 769-772 (castling rights), written in
the source's order. -/
def bitboard (b : Board) : List Bool :=
  (((((pieceBits b).set 768 b.turn).set 769
      b.whiteKingside).set 770 b.whiteQueenside).set 771
      b.blackKingside).set 772 b.blackQueenside

/-- The states of `chess.Board.piece_map()` the script can actually see:
squares are in `0..63` and distinct (the map is square-keyed), piece
types in `1..6`. -/
def ValidBoard (b : Board) : Prop :=
  (∀ e ∈ b.pieceMap, e.1 < 64 ∧ 1 ≤ e.2.pieceType ∧ e.2.pieceType ≤ 6) ∧
  (b.pieceMap.map Prod.fst).Nodup

/-- Replay operations supplied by python-chess: `push` mirrors
`board.push(move)` (returning the advanced board) and `isCapture`
mirrors `board.is_capture(move)`. -/
structure ChessOps (B M : Type) where
  push : B → M → B
  isCapture : B → M → Bool

/-- The part of a parsed `chess.pgn` game that `preprocess` reads:
the `Result` header, the `PlyCount` header, and the main-line move
list. -/
structure Game (M : Type) where
  result : String
  plyCount : Nat
  moves : List M

/-- Mirrors `for move in range(n): board.push(next(moves))`: push `n`
moves pulled from the iterator, returning the advanced board and the
rest of the iterator, or the uncaught `StopIteration` when the
iterator runs dry. -/
def pushMoves {B M : Type} (ops : ChessOps B M) :
    Nat → B → List M → Except String (B × List M)
  | 0, b, ms => .ok (b, ms)
  | _ + 1, _, [] => .error "StopIteration"
  | n + 1, b, m :: rest => pushMoves ops n (ops.push b m) rest

/-- Mirrors the non-capture identification loop of `preprocess`:
`for move in range(ply-5): next_move = next(moves_copy);
if not board_copy.is_capture(next_move): non_capture_moves.append(move);
board_copy.push(next_move)`.  The loop counter starts at `i`, the
accumulator holds the list built so far. -/
def findNonCaptures {B M : Type} (ops : ChessOps B M) :
    Nat → Nat → B → List M → List Nat → Except String (List Nat × B)
  | 0, _, b, _, acc => .ok (acc, b)
  | _ + 1, _, _, [], _ => .error "StopIteration"
  | n + 1, i, b, m :: rest, acc =>
      findNonCaptures ops n (i + 1) (ops.push b m) rest
        (if ops.isCapture b m then acc else acc ++ [i])

/-- Mirrors `np.random.choice(pool, k, replace=False)`: raises
`ValueError` when asked for more samples than the population holds,
otherwise returns the first `k` entries of a shuffle of the pool.  The
shuffle performed internally by numpy is abstracted as the function
argument `shuffle`; theorems quantify over all permutations. -/
def randomChoice (shuffle : List Nat → List Nat) (pool : List Nat) (k : Nat) :
    Except String (List Nat) :=
  if pool.length < k then
    .error "ValueError: cannot take a larger sample than population"
  else
    .ok ((shuffle pool).take k)

/-- Mirrors the extraction loop of `preprocess`:
`for move in range(ply-5): board.push(next(moves));
if move in random_moves: temp_data.append(self._bitboard(board))`.
The encoder is abstracted as `encode`. -/
def extractBitboards {B M V : Type} (ops : ChessOps B M) (encode : B → V)
    (sampled : List Nat) :
    Nat → Nat → B → List M → List V → Except String (List V × B)
  | 0, _, b, _, acc => .ok (acc, b)
  | _ + 1, _, _, [], _ => .error "StopIteration"
  | n + 1, i, b, m :: rest, acc =>
      extractBitboards ops encode sampled n (i + 1) (ops.push b m) rest
        (if sampled.contains i then acc ++ [encode (ops.push b m)] else acc)

/-- One iteration of the `while game != None` loop of `preprocess` for
a single game: the inclusion gate
`if game.headers['Result'] != '1/2-1/2' and process:`, then skip 5
plies, scan for non-captures, sample 10, extract the bitboards of the
sampled positions, and route the collected vectors to the win or loss
side by the `Result` header.  The result is the pair of lists appended
to `win_data` and `loss_data`; any Python exception aborts with
`.error`. -/
def gameStep {B M V : Type} (ops : ChessOps B M) (encode : B → V) (initBoard : B)
    (coin : Bool) (shuffle : List Nat → List Nat) (g : Game M) :
    Except String (List V × List V) :=
  if (g.result != "1/2-1/2") && coin then
    match pushMoves ops 5 initBoard g.moves with
    | .error e => .error e
    | .ok skipped =>
      match findNonCaptures ops (g.plyCount - 5) 0 skipped.1 skipped.2 [] with
      | .error e => .error e
      | .ok scanned =>
        match randomChoice shuffle scanned.1 10 with
        | .error e => .error e
        | .ok sampled =>
          match extractBitboards ops encode sampled (g.plyCount - 5) 0
              skipped.1 skipped.2 [] with
          | .error e => .error e
          | .ok extracted =>
            if g.result == "1-0" then .ok (extracted.1, [])
            else if g.result == "0-1" then .ok ([], extracted.1)
            else .ok ([], [])
  else
    .ok ([], [])

/-- Corpus loop of `preprocess`: fold `gameStep` over the game stream,
extending `win_data` and `loss_data`; the random stream is indexed by
the game number (`coins` for the inclusion trials, `shuffles` for the
sampling shuffles).  An uncaught exception aborts the whole run. -/
def preprocessGo {B M V : Type} (ops : ChessOps B M) (encode : B → V) (initBoard : B)
    (coins : Nat → Bool) (shuffles : Nat → List Nat → List Nat) :
    Nat → List (Game M) → List V → List V → Except String (List V × List V)
  | _, [], win, loss => .ok (win, loss)
  | idx, g :: rest, win, loss =>
      match gameStep ops encode initBoard (coins idx) (shuffles idx) g with
      | .error e => .error e
      | .ok (w, l) => preprocessGo ops encode initBoard coins shuffles
          (idx + 1) rest (win ++ w) (loss ++ l)

/-- Shallow embedding of `PGNData.preprocess` on a parsed corpus:
start with empty `win_data` and `loss_data` and process every game. -/
def preprocess {B M V : Type} (ops : ChessOps B M) (encode : B → V) (initBoard : B)
    (games : List (Game M)) (coins : Nat → Bool)
    (shuffles : Nat → List Nat → List Nat) : Except String (List V × List V) :=
  preprocessGo ops encode initBoard coins shuffles 0 games [] []

/-- The eligible (non-capture) index list the code computes for a game:
the output of the scan loop after the 5-ply skip, empty when either
stage raises. -/
def eligibleOf {B M : Type} (ops : ChessOps B M) (initBoard : B) (g : Game M) :
    List Nat :=
  match pushMoves ops 5 initBoard g.moves with
  | .error _ => []
  | .ok skipped =>
      match findNonCaptures ops (g.plyCount - 5) 0 skipped.1 skipped.2 [] with
      | .error _ => []
      | .ok scanned => scanned.1

/-- Number of vectors the corpus contributes to the collection labelled
`res` ("1-0" for `win_data`, "0-1" for `loss_data`): games passing the
inclusion coin with result `res` contribute `min 10 |eligible|` each. -/
def sumContrib {B M : Type} (ops : ChessOps B M) (initBoard : B)
    (coins : Nat → Bool) (res : String) : Nat → List (Game M) → Nat
  | _, [] => 0
  | idx, g :: rest =>
      (if coins idx && (g.result == res) then
        min 10 (eligibleOf ops initBoard g).length
      else 0) + sumContrib ops initBoard coins res (idx + 1) rest

/-- Reference form of the scan loop: walk the window from board `b`,
emitting the loop counter for each non-capture and always advancing
the board. -/
def eligSpecGo {B M : Type} (ops : ChessOps B M) : B → List M → Nat → List Nat
  | _, [], _ => []
  | b, m :: rest, i =>
      (if ops.isCapture b m then [] else [i]) ++
        eligSpecGo ops (ops.push b m) rest (i + 1)

/-- Reference form of the extraction loop: walk the window from board
`b`, pushing every move and emitting the encoded board after each move
whose index is in the sampled set. -/
def extractSpecGo {B M V : Type} (ops : ChessOps B M) (encode : B → V)
    (sampled : List Nat) : B → List M → Nat → List V
  | _, [], _ => []
  | b, m :: rest, i =>
      (if sampled.contains i then [encode (ops.push b m)] else []) ++
        extractSpecGo ops encode sampled (ops.push b m) rest (i + 1)

/-- Toy replay operations used for concrete checks: the board is a
move counter, no move is a capture. -/
def unitOps : ChessOps Nat Unit := ⟨fun b _ => b + 1, fun _ _ => false⟩

/-- Toy replay operations with captures: the board accumulates moves,
and a move is a capture when the resulting sum is even. -/
def parityOps : ChessOps Nat Nat := ⟨fun b m => b + m, fun b m => (b + m) % 2 == 0⟩

/-- A 15-ply decisive game for the first side. -/
def winGame : Game Unit := ⟨"1-0", 15, List.replicate 15 ()⟩

/-- A 15-ply decisive game for the second side. -/
def lossGame : Game Unit := ⟨"0-1", 15, List.replicate 15 ()⟩

/-- A drawn game. -/
def drawGame : Game Unit := ⟨"1/2-1/2", 15, List.replicate 15 ()⟩

/-- A game with an unfinished result header. -/
def starGame : Game Unit := ⟨"*", 15, List.replicate 15 ()⟩

/-- A 13-ply decisive game: its post-opening window has only 8 moves,
so fewer than 10 eligible positions exist. -/
def shortGame : Game Unit := ⟨"1-0", 13, List.replicate 13 ()⟩

/-- A 5-ply decisive game: its post-opening window is empty. -/
def fiveGame : Game Unit := ⟨"1-0", 5, List.replicate 5 ()⟩

/-- A three-game corpus with one win, one loss and one draw. -/
def sampleCorpus : List (Game Unit) := [winGame, lossGame, drawGame]

/-- A small concrete board: white rook on a1, white king on e1, black
king on e8, white to move, castling rights except white queenside. -/
def sampleBoard : Board :=
  ⟨[(0, ⟨true, 4⟩), (4, ⟨true, 6⟩), (60, ⟨false, 6⟩)], true, true, false, true, true⟩

lemma pieceIndex_lt_768 {c : Bool} {pt sq : Nat}
    (h1 : 1 ≤ pt) (h2 : pt ≤ 6) (h3 : sq < 64) :
    pieceIndex c pt sq < 768 := by
  unfold pieceIndex colorInt
  cases c <;> simp <;> omega

lemma entryIndex_lt_768 {e : Nat × Piece}
    (h : e.1 < 64 ∧ 1 ≤ e.2.pieceType ∧ e.2.pieceType ≤ 6) :
    entryIndex e < 768 :=
  pieceIndex_lt_768 h.2.1 h.2.2 h.1

/-- The square of an entry is recoverable from its bit index. -/
lemma entryIndex_mod_64 {e : Nat × Piece} (h : e.1 < 64) :
    entryIndex e % 64 = e.1 := by
  unfold entryIndex pieceIndex colorInt
  cases e.2.color <;> simp <;> omega

lemma getD_set_self (l : List Bool) (i : Nat) (a : Bool) (h : i < l.length) :
    (l.set i a).getD i false = a := by
  simp [List.getD_eq_getElem?_getD, List.getElem?_set_self, h]

lemma getD_set_ne (l : List Bool) (i j : Nat) (a : Bool) (h : i ≠ j) :
    (l.set i a).getD j false = l.getD j false := by
  simp [List.getD_eq_getElem?_getD, List.getElem?_set_ne h]

lemma getD_replicate_false (n j : Nat) :
    (List.replicate n false).getD j false = false := by
  rcases lt_or_le j n with h | h
  · simp [List.getD_eq_getElem?_getD, List.getElem?_replicate, h]
  · simp [List.getD_eq_getElem?_getD, List.getElem?_replicate, Nat.not_lt.mpr h]

lemma foldl_set_length (entries : List (Nat × Piece)) (l : List Bool) :
    (entries.foldl (fun acc e => acc.set (entryIndex e) true) l).length = l.length := by
  induction entries generalizing l with
  | nil => rfl
  | cons e rest ih => simpa using ih (l.set (entryIndex e) true)

lemma foldl_set_getD (entries : List (Nat × Piece)) (l : List Bool) (j : Nat)
    (hin : ∀ e ∈ entries, entryIndex e < l.length) :
    (entries.foldl (fun acc e => acc.set (entryIndex e) true) l).getD j false =
      (entries.any (fun e => entryIndex e == j) || l.getD j false) := by
  induction entries generalizing l with
  | nil => simp
  | cons e rest ih =>
    have hstep : ∀ x ∈ rest, entryIndex x < (l.set (entryIndex e) true).length := by
      intro x hx
      simpa using hin x (List.mem_cons_of_mem e hx)
    by_cases hj : entryIndex e = j
    · subst hj
      simp only [List.foldl_cons, ih (l.set (entryIndex e) true) hstep,
        getD_set_self l (entryIndex e) true (hin e (List.mem_cons_self e rest))]
      simp
    · have hb : (entryIndex e == j) = false := by
        simpa using hj
      simp only [List.foldl_cons, ih (l.set (entryIndex e) true) hstep,
        getD_set_ne l (entryIndex e) j true hj]
      simp [List.any_cons, hb]

lemma pieceBits_length (b : Board) : (pieceBits b).length = 773 := by
  unfold pieceBits
  rw [foldl_set_length, List.length_replicate]

lemma bitboard_length (b : Board) : (bitboard b).length = 773 := by
  simp [bitboard, List.length_set, pieceBits_length]

lemma pieceBits_getD (b : Board) (hv : ValidBoard b) (j : Nat) :
    (pieceBits b).getD j false = b.pieceMap.any (fun e => entryIndex e == j) := by
  have hin : ∀ e ∈ b.pieceMap,
      entryIndex e < (List.replicate 773 false).length := by
    intro e he
    have := entryIndex_lt_768 (hv.1 e he)
    simp only [List.length_replicate]
    omega
  have hP := foldl_set_getD b.pieceMap (List.replicate 773 false) j hin
  rw [getD_replicate_false, Bool.or_false] at hP
  unfold pieceBits
  exact hP

/-- Closed form for every bit of the encoder's output (valid boards). -/
lemma bitboard_getD (b : Board) (hv : ValidBoard b) (j : Nat) :
    (bitboard b).getD j false =
      if j = 772 then b.blackQueenside
      else if j = 771 then b.blackKingside
      else if j = 770 then b.whiteQueenside
      else if j = 769 then b.whiteKingside
      else if j = 768 then b.turn
      else b.pieceMap.any (fun e => entryIndex e == j) := by
  have hlen1 : 768 < ((((pieceBits b).set 768 b.turn).set 769
      b.whiteKingside).set 770 b.whiteQueenside).length + 5 := by
    simp [List.length_set, pieceBits_length]
  by_cases h772 : j = 772
  · subst h772
    rw [bitboard, getD_set_self _ 772 _ (by simp [List.length_set, pieceBits_length])]
    simp
  by_cases h771 : j = 771
  · subst h771
    rw [bitboard, getD_set_ne _ 772 771 _ (by omega),
      getD_set_self _ 771 _ (by simp [List.length_set, pieceBits_length])]
    simp
  by_cases h770 : j = 770
  · subst h770
    rw [bitboard, getD_set_ne _ 772 770 _ (by omega),
      getD_set_ne _ 771 770 _ (by omega),
      getD_set_self _ 770 _ (by simp [List.length_set, pieceBits_length])]
    simp
  by_cases h769 : j = 769
  · subst h769
    rw [bitboard, getD_set_ne _ 772 769 _ (by omega),
      getD_set_ne _ 771 769 _ (by omega), getD_set_ne _ 770 769 _ (by omega),
      getD_set_self _ 769 _ (by simp [List.length_set, pieceBits_length])]
    simp
  by_cases h768 : j = 768
  · subst h768
    rw [bitboard, getD_set_ne _ 772 768 _ (by omega),
      getD_set_ne _ 771 768 _ (by omega), getD_set_ne _ 770 768 _ (by omega),
      getD_set_ne _ 769 768 _ (by omega),
      getD_set_self _ 768 _ (by simp [List.length_set, pieceBits_length])]
    simp
  · rw [bitboard, getD_set_ne _ 772 j _ (by omega),
      getD_set_ne _ 771 j _ (by omega), getD_set_ne _ 770 j _ (by omega),
      getD_set_ne _ 769 j _ (by omega), getD_set_ne _ 768 j _ (by omega),
      pieceBits_getD b hv j]
    simp [h772, h771, h770, h769, h768]

lemma pushMoves_ok {B M : Type} (ops : ChessOps B M) :
    ∀ (n : Nat) (ms : List M) (b : B), n ≤ ms.length →
      pushMoves ops n b ms = .ok ((ms.take n).foldl ops.push b, ms.drop n) := by
  intro n
  induction n with
  | zero => intro ms b _; simp [pushMoves]
  | succ n ih =>
    intro ms b h
    cases ms with
    | nil => simp at h
    | cons m rest =>
      have hr : n ≤ rest.length := by simpa using h
      simp [pushMoves, ih rest (ops.push b m) hr]

lemma pushMoves_err {B M : Type} (ops : ChessOps B M) :
    ∀ (n : Nat) (ms : List M) (b : B), ms.length < n →
      pushMoves ops n b ms = .error "StopIteration" := by
  intro n
  induction n with
  | zero => intro ms b h; simp at h
  | succ n ih =>
    intro ms b h
    cases ms with
    | nil => rfl
    | cons m rest =>
      have hr : rest.length < n := by simpa using h
      simp [pushMoves, ih rest (ops.push b m) hr]

lemma findNonCaptures_go {B M : Type} (ops : ChessOps B M) :
    ∀ (n : Nat) (ms : List M) (i0 : Nat) (b : B) (acc : List Nat), n ≤ ms.length →
      findNonCaptures ops n i0 b ms acc =
        .ok (acc ++ eligSpecGo ops b (ms.take n) i0, (ms.take n).foldl ops.push b) := by
  intro n
  induction n with
  | zero => intro ms i0 b acc _; simp [findNonCaptures, eligSpecGo]
  | succ n ih =>
    intro ms i0 b acc h
    cases ms with
    | nil => simp at h
    | cons m rest =>
      have hr : n ≤ rest.length := by simpa using h
      by_cases hc : ops.isCapture b m
      · simp [findNonCaptures, hc, ih rest (i0 + 1) (ops.push b m) acc hr,
          eligSpecGo]
      · simp [findNonCaptures, hc, ih rest (i0 + 1) (ops.push b m) (acc ++ [i0]) hr,
          eligSpecGo]

lemma findNonCaptures_err {B M : Type} (ops : ChessOps B M) :
    ∀ (n : Nat) (ms : List M) (i0 : Nat) (b : B) (acc : List Nat), ms.length < n →
      findNonCaptures ops n i0 b ms acc = .error "StopIteration" := by
  intro n
  induction n with
  | zero => intro ms i0 b acc h; simp at h
  | succ n ih =>
    intro ms i0 b acc h
    cases ms with
    | nil => rfl
    | cons m rest =>
      have hr : rest.length < n := by simpa using h
      simp [findNonCaptures, ih rest (i0 + 1) (ops.push b m) _ hr]

lemma filter_map_add_one (p : Nat → Bool) (l : List Nat) :
    (l.map (· + 1)).filter p = (l.filter (fun x => p (x + 1))).map (· + 1) := by
  induction l with
  | nil => rfl
  | cons a t ih =>
    by_cases hp : p (a + 1)
    · simp [List.filter_cons, hp, ih]
    · simp [List.filter_cons, hp, ih]

lemma range_succ_cons (n : Nat) :
    List.range (n + 1) = 0 :: (List.range n).map (· + 1) := by
  rw [List.range_succ_eq_map]

lemma filter_range_succ (p : Nat → Bool) (n : Nat) :
    (List.range (n + 1)).filter p =
      (if p 0 then [0] else []) ++
        ((List.range n).filter (fun x => p (x + 1))).map (· + 1) := by
  rw [range_succ_cons, List.filter_cons, filter_map_add_one]
  by_cases hp : p 0
  · simp [hp]
  · simp [hp]

/-- The scan loop emits exactly the window indices whose move is not a
capture on the board reached by replaying all preceding window moves. -/
lemma eligSpecGo_eq {B M : Type} (ops : ChessOps B M) (mdef : M) :
    ∀ (ms : List M) (b : B) (i0 : Nat),
      eligSpecGo ops b ms i0 =
        ((List.range ms.length).filter
          (fun i => !(ops.isCapture ((ms.take i).foldl ops.push b) (ms.getD i mdef)))).map
          (· + i0) := by
  intro ms
  induction ms with
  | nil => intro b i0; simp [eligSpecGo]
  | cons m rest ih =>
    intro b i0
    rw [eligSpecGo, ih (ops.push b m) (i0 + 1), List.length_cons,
      filter_range_succ, List.map_append, List.map_map]
    have hcongr :
        ∀ x ∈ List.range rest.length,
          (fun i => !(ops.isCapture (((m :: rest).take i).foldl ops.push b)
              ((m :: rest).getD i mdef))) (x + 1) =
          (fun i => !(ops.isCapture ((rest.take i).foldl ops.push (ops.push b m))
              (rest.getD i mdef))) x := by
      intro x _
      simp only [List.take_succ_cons, List.foldl_cons, List.getD_cons_succ]
    rw [List.filter_congr hcongr]
    congr 1
    · simp only [List.take_zero, List.foldl_nil, List.getD_cons_zero]
      by_cases hc : ops.isCapture b m
      · simp [hc]
      · simp [hc]
    · apply List.map_congr_left
      intro x _
      simp only [Function.comp_apply]
      omega

lemma extractBitboards_go {B M V : Type} (ops : ChessOps B M) (encode : B → V)
    (sampled : List Nat) :
    ∀ (n : Nat) (ms : List M) (i0 : Nat) (b : B) (acc : List V), n ≤ ms.length →
      extractBitboards ops encode sampled n i0 b ms acc =
        .ok (acc ++ extractSpecGo ops encode sampled b (ms.take n) i0,
          (ms.take n).foldl ops.push b) := by
  intro n
  induction n with
  | zero => intro ms i0 b acc _; simp [extractBitboards, extractSpecGo]
  | succ n ih =>
    intro ms i0 b acc h
    cases ms with
    | nil => simp at h
    | cons m rest =>
      have hr : n ≤ rest.length := by simpa using h
      by_cases hs : i0 ∈ sampled
      · simp [extractBitboards, hs,
          ih rest (i0 + 1) (ops.push b m) (acc ++ [encode (ops.push b m)]) hr,
          extractSpecGo]
      · simp [extractBitboards, hs, ih rest (i0 + 1) (ops.push b m) acc hr,
          extractSpecGo]

lemma extractBitboards_err {B M V : Type} (ops : ChessOps B M) (encode : B → V)
    (sampled : List Nat) :
    ∀ (n : Nat) (ms : List M) (i0 : Nat) (b : B) (acc : List V), ms.length < n →
      extractBitboards ops encode sampled n i0 b ms acc = .error "StopIteration" := by
  intro n
  induction n with
  | zero => intro ms i0 b acc h; simp at h
  | succ n ih =>
    intro ms i0 b acc h
    cases ms with
    | nil => rfl
    | cons m rest =>
      have hr : rest.length < n := by simpa using h
      simp [extractBitboards, ih rest (i0 + 1) (ops.push b m) _ hr]

/-- The extraction loop emits, in ascending window order, the encoding
of the board reached after each sampled move. -/
lemma extractSpecGo_eq {B M V : Type} (ops : ChessOps B M) (encode : B → V)
    (sampled : List Nat) :
    ∀ (ms : List M) (b : B) (i0 : Nat),
      extractSpecGo ops encode sampled b ms i0 =
        ((List.range ms.length).filter (fun i => sampled.contains (i + i0))).map
          (fun i => encode ((ms.take (i + 1)).foldl ops.push b)) := by
  intro ms
  induction ms with
  | nil => intro b i0; simp [extractSpecGo]
  | cons m rest ih =>
    intro b i0
    rw [extractSpecGo, ih (ops.push b m) (i0 + 1), List.length_cons,
      filter_range_succ, List.map_append, List.map_map]
    have hcongr :
        ∀ x ∈ List.range rest.length,
          (fun i => sampled.contains (i + i0)) (x + 1) =
          (fun i => sampled.contains (i + (i0 + 1))) x := by
      intro x _
      have hx : x + 1 + i0 = x + (i0 + 1) := by omega
      simp only [hx]
    rw [List.filter_congr hcongr]
    congr 1
    · simp only [Nat.zero_add, List.take_succ_cons, List.take_zero,
        List.foldl_cons, List.foldl_nil]
      by_cases hs : i0 ∈ sampled
      · simp [hs]
      · simp [hs]

lemma length_filter_contains (s : List Nat) (n : Nat) (hnd : s.Nodup)
    (hlt : ∀ x ∈ s, x < n) :
    ((List.range n).filter (fun i => s.contains i)).length = s.length := by
  have hperm : ((List.range n).filter (fun i => s.contains i)).Perm s := by
    apply (List.perm_ext_iff_of_nodup
      (List.Nodup.filter _ (List.nodup_range n)) hnd).mpr
    intro a
    simp only [List.mem_filter, List.mem_range, List.elem_iff]
    exact ⟨fun h => h.2, fun h => ⟨hlt a h, h⟩⟩
  exact hperm.length_eq

lemma count_true_eq_filter_length (l : List Bool) :
    l.count true = ((List.range l.length).filter (fun j => l.getD j false)).length := by
  induction l with
  | nil => simp
  | cons a t ih =>
    rw [List.length_cons, filter_range_succ]
    simp only [List.getD_cons_zero, List.getD_cons_succ]
    rw [List.length_append, List.length_map]
    cases a
    · simp [List.count_cons, ih]
    · simp only [List.count_cons, ih, beq_self_eq_true, if_true]
      simp [List.getD_eq_getElem?_getD]
      omega

/-- Distinct occupied squares get distinct bit indices. -/
lemma nodup_entryIndex (b : Board) (hv : ValidBoard b) :
    (b.pieceMap.map entryIndex).Nodup := by
  have hnd : b.pieceMap.Nodup := List.Nodup.of_map Prod.fst hv.2
  apply List.Nodup.map_on ?_ hnd
  intro x hx y hy hxy
  have hfst : x.1 = y.1 := by
    have hx64 := (hv.1 x hx).1
    have hy64 := (hv.1 y hy).1
    calc x.1 = entryIndex x % 64 := (entryIndex_mod_64 hx64).symm
    _ = entryIndex y % 64 := by rw [hxy]
    _ = y.1 := entryIndex_mod_64 hy64
  exact List.inj_on_of_nodup_map hv.2 hx hy hfst

lemma eligSpecGo_bounds {B M : Type} (ops : ChessOps B M) :
    ∀ (ms : List M) (b : B) (i0 : Nat) (x : Nat),
      x ∈ eligSpecGo ops b ms i0 → i0 ≤ x ∧ x < i0 + ms.length := by
  intro ms
  induction ms with
  | nil => intro b i0 x hx; simp [eligSpecGo] at hx
  | cons m rest ih =>
    intro b i0 x hx
    rw [eligSpecGo] at hx
    rcases List.mem_append.mp hx with hx | hx
    · have : x = i0 := by
        by_cases hc : ops.isCapture b m
        · simp [hc] at hx
        · simpa [hc] using hx
      subst this
      simp only [List.length_cons]
      omega
    · have := ih (ops.push b m) (i0 + 1) x hx
      simp only [List.length_cons]
      omega

lemma eligSpecGo_nodup {B M : Type} (ops : ChessOps B M) :
    ∀ (ms : List M) (b : B) (i0 : Nat), (eligSpecGo ops b ms i0).Nodup := by
  intro ms
  induction ms with
  | nil => intro b i0; simp [eligSpecGo]
  | cons m rest ih =>
    intro b i0
    rw [eligSpecGo]
    by_cases hc : ops.isCapture b m
    · simpa [hc] using ih (ops.push b m) (i0 + 1)
    · simp only [hc, Bool.false_eq_true, if_false, List.singleton_append,
        List.nodup_cons]
      refine ⟨fun hmem => ?_, ih (ops.push b m) (i0 + 1)⟩
      have := eligSpecGo_bounds ops rest (ops.push b m) (i0 + 1) i0 hmem
      omega

/-- Analysis of one included game that was processed without an
exception: the eligible set has at least 10 members, and exactly 10
vectors go to the side given by the result header (none anywhere for a
result other than 1-0 or 0-1). -/
lemma gameStep_included {B M V : Type} (ops : ChessOps B M) (encode : B → V)
    (b0 : B) (coin : Bool) (shuffle : List Nat → List Nat) (g : Game M)
    (w l : List V)
    (hperm : ∀ lst, (shuffle lst).Perm lst)
    (hinc : ((g.result != "1/2-1/2") && coin) = true)
    (hok : gameStep ops encode b0 coin shuffle g = .ok (w, l)) :
    10 ≤ (eligibleOf ops b0 g).length ∧
    (g.result = "1-0" → w.length = 10 ∧ l = []) ∧
    (g.result = "0-1" → w = [] ∧ l.length = 10) ∧
    (g.result ≠ "1-0" → g.result ≠ "0-1" → w = [] ∧ l = []) := by
  rw [gameStep, if_pos hinc] at hok
  cases h5 : pushMoves ops 5 b0 g.moves with
  | error e => rw [h5] at hok; simp at hok
  | ok sk =>
  rw [h5] at hok
  dsimp only at hok
  cases hscan : findNonCaptures ops (g.plyCount - 5) 0 sk.1 sk.2 [] with
  | error e => rw [hscan] at hok; simp at hok
  | ok scanned =>
  rw [hscan] at hok
  dsimp only at hok
  have hwin : g.plyCount - 5 ≤ sk.2.length := by
    by_contra hlt
    rw [findNonCaptures_err ops _ _ _ _ _ (by omega)] at hscan
    cases hscan
  have hgo := findNonCaptures_go ops (g.plyCount - 5) sk.2 0 sk.1 [] hwin
  rw [hgo] at hscan
  have helig : scanned.1 = eligSpecGo ops sk.1 (sk.2.take (g.plyCount - 5)) 0 := by
    cases hscan
    simp
  have heligOf : eligibleOf ops b0 g = scanned.1 := by
    rw [eligibleOf, h5]
    dsimp only
    rw [hgo]
    dsimp only
    rw [helig]
    simp
  have hnd : scanned.1.Nodup := by
    rw [helig]; exact eligSpecGo_nodup ops _ _ _
  have hbound : ∀ x ∈ scanned.1, x < g.plyCount - 5 := by
    intro x hx
    rw [helig] at hx
    have := eligSpecGo_bounds ops _ _ _ x hx
    have hlen : (sk.2.take (g.plyCount - 5)).length = g.plyCount - 5 := by
      rw [List.length_take]
      omega
    omega
  cases hch : randomChoice shuffle scanned.1 10 with
  | error e => rw [hch] at hok; simp at hok
  | ok sampled =>
  rw [hch] at hok
  dsimp only at hok
  have hchlen : ¬ scanned.1.length < 10 := by
    intro hlt
    rw [randomChoice, if_pos hlt] at hch
    cases hch
  have hsampled : sampled = (shuffle scanned.1).take 10 := by
    rw [randomChoice, if_neg hchlen] at hch
    cases hch
    rfl
  have hslen : sampled.length = 10 := by
    rw [hsampled, List.length_take, (hperm scanned.1).length_eq]
    omega
  have hsnd : sampled.Nodup := by
    rw [hsampled]
    exact ((hperm scanned.1).nodup_iff.mpr hnd).sublist (List.take_sublist _ _)
  have hsmem : ∀ x ∈ sampled, x < g.plyCount - 5 := by
    intro x hx
    rw [hsampled] at hx
    have hx2 : x ∈ shuffle scanned.1 := List.mem_of_mem_take hx
    exact hbound x ((hperm scanned.1).mem_iff.mp hx2)
  cases hext : extractBitboards ops encode sampled (g.plyCount - 5) 0 sk.1 sk.2 [] with
  | error e => rw [hext] at hok; simp at hok
  | ok extracted =>
  rw [hext] at hok
  dsimp only at hok
  have hextgo := extractBitboards_go ops encode sampled (g.plyCount - 5) sk.2 0 sk.1 [] hwin
  rw [hextgo] at hext
  have htemp : extracted.1 =
      extractSpecGo ops encode sampled sk.1 (sk.2.take (g.plyCount - 5)) 0 := by
    cases hext
    simp
  have hwlen : (sk.2.take (g.plyCount - 5)).length = g.plyCount - 5 := by
    rw [List.length_take]
    omega
  have htlen : extracted.1.length = 10 := by
    rw [htemp, extractSpecGo_eq, List.length_map]
    have hcongr : ∀ x ∈ List.range (sk.2.take (g.plyCount - 5)).length,
        (fun i => sampled.contains (i + 0)) x = (fun i => sampled.contains i) x := by
      intro x _
      simp
    rw [List.filter_congr hcongr, hwlen]
    rw [length_filter_contains sampled _ hsnd hsmem, hslen]
  refine ⟨?_, ?_, ?_, ?_⟩
  · rw [heligOf]; omega
  · intro hr
    rw [hr] at hok
    simp only [beq_self_eq_true, if_true] at hok
    injection hok with hpair
    injection hpair with hw hl
    exact ⟨by rw [← hw, htlen], hl.symm⟩
  · intro hr
    rw [hr] at hok
    simp only [beq_self_eq_true, if_true] at hok
    injection hok with hpair
    injection hpair with hw hl
    exact ⟨hw.symm, by rw [← hl, htlen]⟩
  · intro hr1 hr2
    have hb1 : (g.result == "1-0") = false := by simpa using hr1
    have hb2 : (g.result == "0-1") = false := by simpa using hr2
    rw [hb1, hb2] at hok
    simp only [Bool.false_eq_true, if_false] at hok
    injection hok with hpair
    injection hpair with hw hl
    exact ⟨hw.symm, hl.symm⟩

/-- A drawn game, or one whose inclusion coin fails, produces nothing
and runs none of the later stages. -/
lemma gameStep_skip {B M V : Type} (ops : ChessOps B M) (encode : B → V)
    (b0 : B) (coin : Bool) (shuffle : List Nat → List Nat) (g : Game M)
    (hskip : ((g.result != "1/2-1/2") && coin) = false) :
    gameStep ops encode b0 coin shuffle g = .ok ([], []) := by
  rw [gameStep, if_neg]
  simp [hskip]

lemma sumContrib_nil {B M : Type} (ops : ChessOps B M) (b0 : B)
    (coins : Nat → Bool) (res : String) (idx : Nat) :
    sumContrib ops b0 coins res idx [] = 0 := rfl

lemma sumContrib_cons {B M : Type} (ops : ChessOps B M) (b0 : B)
    (coins : Nat → Bool) (res : String) (idx : Nat) (g : Game M)
    (rest : List (Game M)) :
    sumContrib ops b0 coins res idx (g :: rest) =
      (if coins idx && (g.result == res) then
        min 10 (eligibleOf ops b0 g).length
      else 0) + sumContrib ops b0 coins res (idx + 1) rest := rfl

/-- Accumulator bookkeeping of the corpus loop: a successful run adds,
per game, exactly the contribution counted by `sumContrib`. -/
lemma preprocessGo_length {B M V : Type} (ops : ChessOps B M) (encode : B → V)
    (b0 : B) (coins : Nat → Bool) (shuffles : Nat → List Nat → List Nat)
    (hperm : ∀ i lst, (shuffles i lst).Perm lst) :
    ∀ (games : List (Game M)) (idx : Nat) (win loss W L : List V),
      preprocessGo ops encode b0 coins shuffles idx games win loss = .ok (W, L) →
      W.length = win.length + sumContrib ops b0 coins "1-0" idx games ∧
      L.length = loss.length + sumContrib ops b0 coins "0-1" idx games := by
  intro games
  induction games with
  | nil =>
    intro idx win loss W L hok
    rw [preprocessGo] at hok
    injection hok with hpair
    injection hpair with hW hL
    simp [← hW, ← hL, sumContrib_nil]
  | cons g rest ih =>
    intro idx win loss W L hok
    rw [preprocessGo] at hok
    cases hstep : gameStep ops encode b0 (coins idx) (shuffles idx) g with
    | error e => rw [hstep] at hok; simp at hok
    | ok p =>
    rw [hstep] at hok
    dsimp only at hok
    obtain ⟨hW, hL⟩ := ih (idx + 1) (win ++ p.1) (loss ++ p.2) W L hok
    rw [List.length_append] at hW hL
    by_cases hinc : ((g.result != "1/2-1/2") && coins idx) = true
    · have hok2 : gameStep ops encode b0 (coins idx) (shuffles idx) g =
          .ok (p.1, p.2) := by
        rw [hstep]
      obtain ⟨helig, h10, h01, hother⟩ :=
        gameStep_included ops encode b0 (coins idx) (shuffles idx) g p.1 p.2
          (hperm idx) hinc hok2
      have hcoin : coins idx = true := by
        rcases Bool.and_eq_true_iff.mp hinc with ⟨_, hc⟩
        exact hc
      have hmin : min 10 (eligibleOf ops b0 g).length = 10 :=
        Nat.min_eq_left helig
      by_cases hr1 : g.result = "1-0"
      · obtain ⟨hw10, hl10⟩ := h10 hr1
        rw [sumContrib_cons, sumContrib_cons, hr1]
        simp only [hcoin, Bool.true_and]
        rw [if_pos (by simp), if_neg (by simp)]
        constructor
        · rw [hW, hw10, hmin]; omega
        · rw [hL, hl10]; simp
      by_cases hr2 : g.result = "0-1"
      · obtain ⟨hw01, hl01⟩ := h01 hr2
        rw [sumContrib_cons, sumContrib_cons, hr2]
        simp only [hcoin, Bool.true_and]
        rw [if_neg (by simp), if_pos (by simp)]
        constructor
        · rw [hW, hw01]; simp
        · rw [hL, hl01, hmin]; omega
      · obtain ⟨hwn, hln⟩ := hother hr1 hr2
        rw [sumContrib_cons, sumContrib_cons]
        rw [if_neg (by simp [hr1]), if_neg (by simp [hr2])]
        constructor
        · rw [hW, hwn]; simp
        · rw [hL, hln]; simp
    · have hskip : ((g.result != "1/2-1/2") && coins idx) = false :=
        Bool.eq_false_iff.mpr hinc
      have hstep2 := gameStep_skip ops encode b0 (coins idx) (shuffles idx) g hskip
      rw [hstep] at hstep2
      injection hstep2 with hpair
      have hp1 : p.1 = [] := by rw [hpair]
      have hp2 : p.2 = [] := by rw [hpair]
      have hgate : ∀ res : String, res ≠ "1/2-1/2" →
          (coins idx && (g.result == res)) = false := by
        intro res hres
        rcases Bool.and_eq_false_iff.mp hskip with hd | hc
        · have hdraw : g.result = "1/2-1/2" := by
            simpa using hd
          rw [hdraw]
          have : (("1/2-1/2" == res) = false) := by
            simpa using fun h => hres h.symm
          simp [this]
        · simp [hc]
      rw [sumContrib_cons, sumContrib_cons]
      rw [if_neg (by simp [hgate "1-0" (by simp)]),
        if_neg (by simp [hgate "0-1" (by simp)])]
      constructor
      · rw [hW, hp1]; simp
      · rw [hL, hp2]; simp

lemma no_piece_bit_ge_768 (b : Board) (hv : ValidBoard b) (i : Nat) (hi : 768 ≤ i) :
    ¬ ∃ e ∈ b.pieceMap,
      i = (1 - colorInt e.2.color) * 6 * 64 + (e.2.pieceType - 1) * 64 + e.1 := by
  rintro ⟨e, he, hef⟩
  have hlt := entryIndex_lt_768 (hv.1 e he)
  have hei : i = entryIndex e := hef
  omega

/-- C1: for every position, the encoder returns a 773-element boolean
vector in which, for each occupied square, exactly the bit at index
`(1 - color) * 6 * 64 + (pieceType - 1) * 64 + square` is set, bit 768
equals the side-to-move flag, bits 769-772 are the four castling
rights in source order, and every other bit is false. -/
theorem c1_bitboard_layout (b : Board) (hv : ValidBoard b) :
    (bitboard b).length = 773 ∧
    ∀ i, i < 773 →
      ((bitboard b).getD i false = true ↔
        ((∃ e ∈ b.pieceMap,
            i = (1 - colorInt e.2.color) * 6 * 64 + (e.2.pieceType - 1) * 64 + e.1) ∨
         (i = 768 ∧ b.turn = true) ∨
         (i = 769 ∧ b.whiteKingside = true) ∨
         (i = 770 ∧ b.whiteQueenside = true) ∨
         (i = 771 ∧ b.blackKingside = true) ∨
         (i = 772 ∧ b.blackQueenside = true))) := by
  refine ⟨bitboard_length b, ?_⟩
  intro i hi
  by_cases h772 : i = 772
  · subst h772
    rw [bitboard_getD b hv 772]
    simp [no_piece_bit_ge_768 b hv 772 (by omega)]
  by_cases h771 : i = 771
  · subst h771
    rw [bitboard_getD b hv 771]
    simp [no_piece_bit_ge_768 b hv 771 (by omega)]
  by_cases h770 : i = 770
  · subst h770
    rw [bitboard_getD b hv 770]
    simp [no_piece_bit_ge_768 b hv 770 (by omega)]
  by_cases h769 : i = 769
  · subst h769
    rw [bitboard_getD b hv 769]
    simp [no_piece_bit_ge_768 b hv 769 (by omega)]
  by_cases h768 : i = 768
  · subst h768
    rw [bitboard_getD b hv 768]
    simp [no_piece_bit_ge_768 b hv 768 (by omega)]
  · rw [bitboard_getD b hv i, if_neg h772, if_neg h771, if_neg h770,
      if_neg h769, if_neg h768, List.any_eq_true]
    constructor
    · rintro ⟨e, he, hbeq⟩
      exact Or.inl ⟨e, he, (beq_iff_eq.mp hbeq).symm⟩
    · rintro (⟨e, he, hef⟩ | ⟨h, _⟩ | ⟨h, _⟩ | ⟨h, _⟩ | ⟨h, _⟩ | ⟨h, _⟩)
      · exact ⟨e, he, beq_iff_eq.mpr (show entryIndex e = i from hef.symm)⟩
      · exact absurd h h768
      · exact absurd h h769
      · exact absurd h h770
      · exact absurd h h771
      · exact absurd h h772

/-- Witness for C1 on a concrete three-piece board. -/
theorem c1_witness :
    ValidBoard sampleBoard ∧
    ((bitboard sampleBoard).length = 773 ∧
    ∀ i, i < 773 →
      ((bitboard sampleBoard).getD i false = true ↔
        ((∃ e ∈ sampleBoard.pieceMap,
            i = (1 - colorInt e.2.color) * 6 * 64 + (e.2.pieceType - 1) * 64 + e.1) ∨
         (i = 768 ∧ sampleBoard.turn = true) ∨
         (i = 769 ∧ sampleBoard.whiteKingside = true) ∨
         (i = 770 ∧ sampleBoard.whiteQueenside = true) ∨
         (i = 771 ∧ sampleBoard.blackKingside = true) ∨
         (i = 772 ∧ sampleBoard.blackQueenside = true)))) :=
  ⟨by unfold ValidBoard; decide, c1_bitboard_layout sampleBoard (by unfold ValidBoard; decide)⟩

lemma getD_take (l : List Bool) (n j : Nat) (h : j < n) :
    (l.take n).getD j false = l.getD j false := by
  simp [List.getD_eq_getElem?_getD, List.getElem?_take_of_lt h]

/-- C9: on a position with at most 32 occupied squares the encoder sets
at most 32 bits among the first 768 entries (exactly one per occupied
square, at distinct indices), and bits 768-772 are exactly the side to
move and the four castling flags. -/
theorem c9_popcount (b : Board) (hv : ValidBoard b)
    (hcard : b.pieceMap.length ≤ 32) :
    ((bitboard b).take 768).count true = b.pieceMap.length ∧
    ((bitboard b).take 768).count true ≤ 32 ∧
    (bitboard b).getD 768 false = b.turn ∧
    (bitboard b).getD 769 false = b.whiteKingside ∧
    (bitboard b).getD 770 false = b.whiteQueenside ∧
    (bitboard b).getD 771 false = b.blackKingside ∧
    (bitboard b).getD 772 false = b.blackQueenside := by
  have hlen : ((bitboard b).take 768).length = 768 := by
    rw [List.length_take, bitboard_length]
    decide
  have hcount : ((bitboard b).take 768).count true = b.pieceMap.length := by
    rw [count_true_eq_filter_length, hlen]
    have hstep : ∀ j ∈ List.range 768,
        (fun j => ((bitboard b).take 768).getD j false) j =
        (fun j => (b.pieceMap.map entryIndex).contains j) j := by
      intro j hj
      have hj768 : j < 768 := List.mem_range.mp hj
      show (List.take 768 (bitboard b)).getD j false =
        (b.pieceMap.map entryIndex).contains j
      rw [getD_take _ _ _ hj768, bitboard_getD b hv j,
        if_neg (by omega), if_neg (by omega), if_neg (by omega),
        if_neg (by omega), if_neg (by omega)]
      rw [Bool.eq_iff_iff, List.any_eq_true]
      simp only [List.elem_iff, List.mem_map]
      constructor
      · rintro ⟨e, he, hbeq⟩
        exact ⟨e, he, beq_iff_eq.mp hbeq⟩
      · rintro ⟨e, he, hef⟩
        exact ⟨e, he, beq_iff_eq.mpr hef⟩
    rw [List.filter_congr hstep]
    rw [length_filter_contains (b.pieceMap.map entryIndex) 768
      (nodup_entryIndex b hv) ?bnd]
    · rw [List.length_map]
    case bnd =>
      intro x hx
      rcases List.mem_map.mp hx with ⟨e, he, hef⟩
      rw [← hef]
      exact entryIndex_lt_768 (hv.1 e he)
  refine ⟨hcount, by omega, ?_, ?_, ?_, ?_, ?_⟩
  · rw [bitboard_getD b hv 768]; simp
  · rw [bitboard_getD b hv 769]; simp
  · rw [bitboard_getD b hv 770]; simp
  · rw [bitboard_getD b hv 771]; simp
  · rw [bitboard_getD b hv 772]; simp

/-- Witness for C9 on a concrete three-piece board. -/
theorem c9_witness :
    (ValidBoard sampleBoard ∧ sampleBoard.pieceMap.length ≤ 32) ∧
    (((bitboard sampleBoard).take 768).count true = sampleBoard.pieceMap.length ∧
    ((bitboard sampleBoard).take 768).count true ≤ 32 ∧
    (bitboard sampleBoard).getD 768 false = sampleBoard.turn ∧
    (bitboard sampleBoard).getD 769 false = sampleBoard.whiteKingside ∧
    (bitboard sampleBoard).getD 770 false = sampleBoard.whiteQueenside ∧
    (bitboard sampleBoard).getD 771 false = sampleBoard.blackKingside ∧
    (bitboard sampleBoard).getD 772 false = sampleBoard.blackQueenside) :=
  ⟨⟨by unfold ValidBoard; decide, by decide⟩,
    c9_popcount sampleBoard (by unfold ValidBoard; decide) (by decide)⟩

/-- C10: the encoder is total and pure by construction, and every bit
index it can compute for a piece, `(1 - color) * 384 + (pieceType - 1)
* 64 + square` with `pieceType` in 1..6 and `square` in 0..63, lies
strictly below 768, hence inside the 773-entry vector; in particular
the output vector always keeps length 773. -/
theorem c10_index_in_bounds (c : Bool) (pt sq : Nat)
    (h1 : 1 ≤ pt) (h2 : pt ≤ 6) (hsq : sq < 64) :
    pieceIndex c pt sq < 768 ∧ pieceIndex c pt sq < 773 ∧
    ∀ b : Board, (bitboard b).length = 773 := by
  have h := pieceIndex_lt_768 (c := c) h1 h2 hsq
  exact ⟨h, by omega, bitboard_length⟩

/-- Witness for C10 at the largest admissible piece-type and square. -/
theorem c10_witness :
    pieceIndex false 6 63 < 768 ∧ pieceIndex false 6 63 < 773 ∧
    ∀ b : Board, (bitboard b).length = 773 :=
  c10_index_in_bounds false 6 63 (by decide) (by decide) (by decide)

/-- C2: over the post-opening window (after the first 5 plies, ending
at PlyCount) the eligibility scan returns exactly the relative indices
whose move is not a capture on the board reached by replaying all
preceding moves, and its final board is the fold of `push` over every
window move, so the replay stays synchronized with the game. -/
theorem c2_eligibility_scan {B M : Type} (ops : ChessOps B M) (g : Game M)
    (b0 : B) (mdef : M)
    (hwf : g.moves.length = g.plyCount) (h5 : 5 ≤ g.plyCount) :
    findNonCaptures ops (g.plyCount - 5) 0
        ((g.moves.take 5).foldl ops.push b0) (g.moves.drop 5) [] =
      .ok ((List.range (g.plyCount - 5)).filter
          (fun i => !(ops.isCapture
            (((g.moves.drop 5).take i).foldl ops.push
              ((g.moves.take 5).foldl ops.push b0))
            ((g.moves.drop 5).getD i mdef))),
        (g.moves.drop 5).foldl ops.push ((g.moves.take 5).foldl ops.push b0)) := by
  have hlen : (g.moves.drop 5).length = g.plyCount - 5 := by
    rw [List.length_drop, hwf]
  have hgo := findNonCaptures_go ops (g.plyCount - 5) (g.moves.drop 5) 0
    ((g.moves.take 5).foldl ops.push b0) [] (le_of_eq hlen.symm)
  rw [hgo, List.take_of_length_le (le_of_eq hlen),
    eligSpecGo_eq ops mdef, hlen, List.nil_append,
    List.map_congr_left (fun x _ => Nat.add_zero x)]
  simp

/-- Witness for C2: a concrete 8-ply game over the parity operations,
where only window index 0 is a non-capture. -/
theorem c2_witness :
    findNonCaptures parityOps 3 0 15 [6, 7, 8] [] = .ok ([0], 36) :=
  c2_eligibility_scan parityOps ⟨"1-0", 8, [1, 2, 3, 4, 5, 6, 7, 8]⟩ 0 0
    (by decide) (by decide)

/-- C3: the sampling step errors out exactly when the eligible pool
has fewer than 10 members, and otherwise returns 10 distinct indices
drawn without replacement from the pool (never fewer).  The shuffle
numpy performs internally is quantified over all permutations of the
pool. -/
theorem c3_sampling (shuffle : List Nat → List Nat) (pool : List Nat)
    (hperm : (shuffle pool).Perm pool) (hnd : pool.Nodup) :
    (pool.length < 10 → randomChoice shuffle pool 10 =
      .error "ValueError: cannot take a larger sample than population") ∧
    (10 ≤ pool.length →
      ∃ s, randomChoice shuffle pool 10 = .ok s ∧ s.length = 10 ∧ s.Nodup ∧
        ∀ x ∈ s, x ∈ pool) ∧
    (∀ s, randomChoice shuffle pool 10 = .ok s → s.length = 10) := by
  refine ⟨?_, ?_, ?_⟩
  · intro h
    rw [randomChoice, if_pos h]
  · intro h
    refine ⟨(shuffle pool).take 10, ?_, ?_, ?_, ?_⟩
    · rw [randomChoice, if_neg (by omega)]
    · rw [List.length_take, hperm.length_eq]
      omega
    · exact (hperm.nodup_iff.mpr hnd).sublist (List.take_sublist _ _)
    · intro x hx
      exact hperm.mem_iff.mp (List.mem_of_mem_take hx)
  · intro s hs
    by_cases hlt : pool.length < 10
    · rw [randomChoice, if_pos hlt] at hs
      cases hs
    · rw [randomChoice, if_neg hlt] at hs
      injection hs with h
      rw [← h, List.length_take, hperm.length_eq]
      omega

/-- Witness for C3 on the pool 0..11 with the identity shuffle. -/
theorem c3_witness :
    ((List.range 12).length < 10 → randomChoice id (List.range 12) 10 =
      .error "ValueError: cannot take a larger sample than population") ∧
    (10 ≤ (List.range 12).length →
      ∃ s, randomChoice id (List.range 12) 10 = .ok s ∧ s.length = 10 ∧
        s.Nodup ∧ ∀ x ∈ s, x ∈ List.range 12) ∧
    (∀ s, randomChoice id (List.range 12) 10 = .ok s → s.length = 10) :=
  c3_sampling id (List.range 12) (List.Perm.refl _) (List.nodup_range 12)

/-- C4: the extraction loop returns the vectors in ascending window
order (by ply, not by selection order), and the vector kept for a
sampled index `i` is the encoding of the board reached after pushing
the move at window index `i`. -/
theorem c4_extraction_order {B M V : Type} (ops : ChessOps B M)
    (encode : B → V) (b0 : B) (ms : List M) (n : Nat) (sampled : List Nat)
    (h : ms.length = n) :
    extractBitboards ops encode sampled n 0 b0 ms [] =
      .ok (((List.range n).filter (fun i => sampled.contains i)).map
          (fun i => encode ((ms.take (i + 1)).foldl ops.push b0)),
        ms.foldl ops.push b0) := by
  have hgo := extractBitboards_go ops encode sampled n ms 0 b0 []
    (le_of_eq h.symm)
  rw [hgo, List.take_of_length_le (le_of_eq h), extractSpecGo_eq, h,
    List.nil_append,
    List.filter_congr (fun x hx => by rw [Nat.add_zero])]

/-- Witness for C4: the sampled set is listed out of order as 5, 1, 3,
yet the output lists positions 1, 3, 5 in ply order (boards 2, 4, 6). -/
theorem c4_witness :
    extractBitboards unitOps id [5, 1, 3] 7 0 0 (List.replicate 7 ()) [] =
      .ok ([2, 4, 6], 7) :=
  c4_extraction_order unitOps id 0 (List.replicate 7 ()) 7 [5, 1, 3] (by decide)

/-- C5: a drawn game, and a game whose inclusion coin fails, leaves
both accumulators unchanged: its step yields no vectors (and by the
shape of the gate never reaches the scan, sampling or encoding), and
the corpus fold passes the accumulators through untouched. -/
theorem c5_skipped_contributes_nothing {B M V : Type} (ops : ChessOps B M)
    (encode : B → V) (b0 : B) (coins : Nat → Bool)
    (shuffles : Nat → List Nat → List Nat) (idx : Nat) (g : Game M)
    (rest : List (Game M)) (win loss : List V)
    (h : g.result = "1/2-1/2" ∨ coins idx = false) :
    gameStep ops encode b0 (coins idx) (shuffles idx) g = .ok ([], []) ∧
    preprocessGo ops encode b0 coins shuffles idx (g :: rest) win loss =
      preprocessGo ops encode b0 coins shuffles (idx + 1) rest win loss := by
  have hskip : ((g.result != "1/2-1/2") && coins idx) = false := by
    rcases h with h | h
    · simp [h]
    · simp [h]
  have hstep := gameStep_skip ops encode b0 (coins idx) (shuffles idx) g hskip
  refine ⟨hstep, ?_⟩
  rw [preprocessGo, hstep]
  dsimp only
  rw [List.append_nil, List.append_nil]

/-- Witness for C5: a drawn game (with a deliberately nonsensical ply
count and no moves, showing the later stages are never reached) leaves
a nonempty accumulator pair untouched. -/
theorem c5_witness :
    gameStep unitOps id 0 ((fun _ => true) 0) ((fun _ l => l) 0)
        (⟨"1/2-1/2", 100, []⟩ : Game Unit) = .ok ([], []) ∧
    preprocessGo unitOps id 0 (fun _ => true) (fun _ l => l) 0
        [⟨"1/2-1/2", 100, []⟩] [7] [9] =
      preprocessGo unitOps id 0 (fun _ => true) (fun _ l => l) 1 [] [7] [9] :=
  c5_skipped_contributes_nothing unitOps id 0 (fun _ => true) (fun _ l => l) 0
    ⟨"1/2-1/2", 100, []⟩ [] [7] [9] (Or.inl rfl)

/-- Counterexample to C6: a corpus holding one included game with the
unfinished result header "*".  The game is non-skipped and non-draw,
its eligible set has 10 members (so the claimed sum is `min 10 10 =
10`), yet the run ends with both collections empty: the code routes
vectors only for the results 1-0 and 0-1, so this game contributes 0,
not `min 10 |eligible|`. -/
theorem c6_counterexample :
    preprocess unitOps id 0 [starGame] (fun _ => true) (fun _ l => l) =
      .ok ([], []) ∧
    eligibleOf unitOps 0 starGame = List.range 10 ∧
    ¬ (([] : List Nat).length + ([] : List Nat).length =
        min 10 (eligibleOf unitOps 0 starGame).length) :=
  ⟨rfl, rfl, by decide⟩

/-- C6 (amended): after a completed run, `win_data` holds exactly
`min 10 |eligible|` vectors for every non-skipped game with result
1-0, `loss_data` the same for result 0-1, and the total is the sum of
the two; non-skipped, non-draw games with any other result are
processed but contribute nothing. -/
theorem c6_totals {B M V : Type} (ops : ChessOps B M) (encode : B → V)
    (b0 : B) (games : List (Game M)) (coins : Nat → Bool)
    (shuffles : Nat → List Nat → List Nat) (W L : List V)
    (hperm : ∀ i lst, (shuffles i lst).Perm lst)
    (hok : preprocess ops encode b0 games coins shuffles = .ok (W, L)) :
    W.length = sumContrib ops b0 coins "1-0" 0 games ∧
    L.length = sumContrib ops b0 coins "0-1" 0 games ∧
    W.length + L.length =
      sumContrib ops b0 coins "1-0" 0 games +
        sumContrib ops b0 coins "0-1" 0 games := by
  rw [preprocess] at hok
  obtain ⟨hW, hL⟩ := preprocessGo_length ops encode b0 coins shuffles hperm
    games 0 [] [] W L hok
  rw [List.length_nil, Nat.zero_add] at hW hL
  exact ⟨hW, hL, by omega⟩

/-- Witness for C6 (amended) on a three-game corpus: one win, one
loss, one draw; ten vectors land on each side. -/
theorem c6_witness :
    ([6, 7, 8, 9, 10, 11, 12, 13, 14, 15] : List Nat).length =
      sumContrib unitOps 0 (fun _ => true) "1-0" 0 sampleCorpus ∧
    ([6, 7, 8, 9, 10, 11, 12, 13, 14, 15] : List Nat).length =
      sumContrib unitOps 0 (fun _ => true) "0-1" 0 sampleCorpus ∧
    ([6, 7, 8, 9, 10, 11, 12, 13, 14, 15] : List Nat).length +
        ([6, 7, 8, 9, 10, 11, 12, 13, 14, 15] : List Nat).length =
      sumContrib unitOps 0 (fun _ => true) "1-0" 0 sampleCorpus +
        sumContrib unitOps 0 (fun _ => true) "0-1" 0 sampleCorpus :=
  c6_totals unitOps id 0 sampleCorpus (fun _ => true) (fun _ l => l)
    [6, 7, 8, 9, 10, 11, 12, 13, 14, 15] [6, 7, 8, 9, 10, 11, 12, 13, 14, 15]
    (fun _ _ => List.Perm.refl _) rfl

/-- C7 evaluated at a failing input: a corpus whose first game is
included but has only 8 eligible positions (13 plies, no captures),
followed by a perfectly good game.  The sampling error of the first
game propagates out of the whole run: traversal does not continue, no
output is produced, so per-game failures are not isolated. -/
theorem c7_per_game_failure_aborts_run :
    preprocess unitOps id 0 [shortGame, winGame] (fun _ => true)
        (fun _ l => l) =
      .error "ValueError: cannot take a larger sample than population" := rfl

/-- C8 evaluated at a failing input: for a 5-ply game the post-opening
window is empty and the eligibility scan itself returns the empty set
without error, but the sampling stage then raises (an empty pool
cannot yield 10 samples), so the game step crashes instead of
short-circuiting. -/
theorem c8_empty_window_still_crashes :
    fiveGame.plyCount - 5 = 0 ∧
    findNonCaptures unitOps (fiveGame.plyCount - 5) 0 (5 : Nat) [] [] =
      .ok ([], 5) ∧
    eligibleOf unitOps 0 fiveGame = [] ∧
    gameStep unitOps id 0 true (fun l => l) fiveGame =
      .error "ValueError: cannot take a larger sample than population" :=
  ⟨rfl, rfl, rfl, rfl⟩

end DeepChess
